import Mathlib

/-!
Verification development for the wikipedia-research-assistant repository.

The Python sources (`scraper.py`, `summarizer.py`, `filter.py`, `app.py`,
`cli.py`) are shallowly embedded below.  Pure string manipulation is
modelled over `List Char`; the network and the HTML parser are modelled
as an explicit environment (`Env`) mapping URLs to fetch outcomes and
search terms to search outcomes, with parsed pages (`Doc`) holding the
pieces of structure the repository reads (anchor hrefs, paragraph texts,
category list items).  Python exceptions become `Except` values.
-/

namespace WikiAssist

/-- Character class of the regex `\s` / `str.strip` / `str.split`, modelled
on the ASCII range: space, tab, newline, carriage return, vertical tab and
form feed. -/
def isSpaceChar (c : Char) : Bool :=
  (c == ' ') || (c == '\t') || (c == '\n') || (c == '\r') || (c == '\x0b') || (c == '\x0c')

/-- The punctuation class `[.,!?;:]` of `summarizer.clean_text`. -/
def isPunct (c : Char) : Bool :=
  (c == '.') || (c == ',') || (c == '!') || (c == '?') || (c == ';') || (c == ':')

/-- Python `str.lower()`, modelled on the ASCII range (`Char.toLower`
lowers exactly the characters `A`-`Z`). -/
def strLower (s : String) : String :=
  String.mk (s.toList.map Char.toLower)

/-- Python string concatenation `a + b`. -/
def strAppend (a b : String) : String :=
  String.mk (a.toList ++ b.toList)

/-- Python `s.startswith(p)` (also the CSS attribute selector `[href^=p]`). -/
def strStartsWith (s p : String) : Bool :=
  p.toList.isPrefixOf s.toList

/-- Python `c in s` for a single-character pattern `c`. -/
def strHasChar (s : String) (c : Char) : Bool :=
  s.toList.any (fun d => d == c)

/-- Occurrence of `needle` as a contiguous run inside `hay`
(Python `needle in hay` for strings). -/
def listHasRun (needle : List Char) : List Char → Bool
  | [] => needle.isEmpty
  | c :: t => needle.isPrefixOf (c :: t) || listHasRun needle t

/-- Python `sub in hay` substring containment. -/
def strContainsSub (hay sub : String) : Bool :=
  listHasRun sub.toList hay.toList

/-- Python `" ".join(xs)`. -/
def joinSp : List String → String
  | [] => ""
  | [s] => s
  | s :: rest => strAppend s (strAppend " " (joinSp rest))

/-- Python `c.replace(' ', '_')` (sanitize a topic: spaces to underscores). -/
def sp2us (s : String) : String :=
  String.mk (s.toList.map (fun c => if c = ' ' then '_' else c))

/-- Python `c.replace('_', ' ')` (display form: underscores to spaces). -/
def us2sp (s : String) : String :=
  String.mk (s.toList.map (fun c => if c = '_' then ' ' else c))

/-! ## summarizer.py -/

/-- First step of `clean_text`: `re.sub(r"\s+", " ", text)` — every maximal
run of whitespace becomes a single space character. -/
def collapseWS : List Char → List Char
  | [] => []
  | [c] => if isSpaceChar c then [' '] else [c]
  | c :: d :: cs =>
    if isSpaceChar c then
      if isSpaceChar d then collapseWS (d :: cs)
      else ' ' :: collapseWS (d :: cs)
    else c :: collapseWS (d :: cs)

/-- Python `str.strip()`: remove leading and trailing whitespace. -/
def pyStrip (l : List Char) : List Char :=
  ((l.dropWhile isSpaceChar).reverse.dropWhile isSpaceChar).reverse

/-- Second step of `clean_text`: `re.sub(r"\s+([.,!?;:])", r"\1", s)`.
A whitespace character is removed exactly when the first non-whitespace
character after it exists and is one of the punctuation marks — which is
precisely membership in a whitespace run immediately preceding such a
mark, the runs the regex deletes. -/
def rmWS : List Char → List Char
  | [] => []
  | c :: cs =>
    if isSpaceChar c then
      match (rmWS cs).head? with
      | some d => if isPunct d then rmWS cs else c :: rmWS cs
      | none => c :: rmWS cs
    else c :: rmWS cs

/-- `summarizer.clean_text`: collapse whitespace runs, strip the ends,
then drop whitespace standing before punctuation. -/
def clean_text (text : String) : String :=
  String.mk (rmWS (pyStrip (collapseWS text.toList)))

/-! ## filter.py -/

/-- An article dictionary as built by `app.py`/`cli.py`: title, url,
excerpt and categories. -/
structure Item where
  title : String
  url : String
  excerpt : String
  categories : List String
deriving DecidableEq, Repr

/-- The lowercase text blob of `filter.matches`:
`" ".join([title, excerpt, " ".join(categories)]).lower()`. -/
def text_blob (item : Item) : String :=
  strLower (joinSp [item.title, item.excerpt, joinSp item.categories])

/-- The `matches` helper of `filter.filter_by_keyword`: under mode `"and"`
every keyword must occur in the blob, under any other mode one occurrence
suffices. -/
def kwMatches (keywords : List String) (mode : String) (item : Item) : Bool :=
  let blob := text_blob item
  if mode = "and" then keywords.all (fun kw => strContainsSub blob (strLower kw))
  else keywords.any (fun kw => strContainsSub blob (strLower kw))

/-- `filter.filter_by_keyword`: keep the items accepted by `matches`,
in order.  The mode defaults to `"or"` as in the source. -/
def filter_by_keyword (items : List Item) (keywords : List String)
    (mode : String := "or") : List Item :=
  items.filter (kwMatches keywords mode)

/-! ## scraper.py -/

/-- A parsed Wikipedia page as far as the repository reads it
(BeautifulSoup is the external parser; these fields are the values its
selectors hand back to the repository's code):
`anchors` — the `href` attributes of the `<a>` elements inside
`div.mw-parser-output`, in document order;
`paragraphs` — the `get_text(" ", strip=True)` text of each `<p>` directly
under `div.mw-parser-output`, in document order;
`catlinks` — the stripped text of each `<li>` under
`#mw-normal-catlinks ul`, or `none` when that container is absent. -/
structure Doc where
  anchors : List String
  paragraphs : List String
  catlinks : Option (List String)
deriving DecidableEq, Repr

/-- Outcome of one `requests.get` call: a completed HTTP response with a
status code and parsed body, or a transport-level exception. -/
inductive FetchOutcome where
  | resp (status : Nat) (doc : Doc)
  | netErr
deriving DecidableEq, Repr

/-- Outcome of one MediaWiki API search call: the ordered titles of the
hits on success, or a failure (a transport error or an HTTP error status
surfaced by `raise_for_status`). -/
inductive SearchOutcome where
  | hits (titles : List String)
  | fail
deriving DecidableEq, Repr

/-- The outside world: what each URL fetch and each search query returns. -/
structure Env where
  fetch : String → FetchOutcome
  search : String → SearchOutcome

/-- The errors the scraper can raise.  `noPage` and `badStatus` carry the
data interpolated into the corresponding `Exception` messages
(`"Womp womp! No page found for '{topic}'."` and
`"Womp womp! Tried '{match}' but got status {status}."`); `netFail` is an
uncaught exception from the HTTP layer. -/
inductive WikiError where
  | noPage (topic : String)
  | badStatus (title : String) (status : Nat)
  | netFail
deriving DecidableEq, Repr

/-- `scraper.build_wiki_url`. -/
def build_wiki_url (topic : String) : String :=
  strAppend "https://en.wikipedia.org/wiki/" topic

/-- `scraper.search_wikipedia`: query the API, propagate HTTP failures,
return the first hit's title or `none` when there are no hits. -/
def search_wikipedia (env : Env) (term : String) : Except WikiError (Option String) :=
  match env.search term with
  | .fail => .error .netFail
  | .hits ts => .ok ts.head?

/-- `scraper.get_soup_for_topic`: direct fetch of the sanitized topic;
on a non-200 status fall back to one search query and one more fetch.
A transport error at any of the three requests propagates as an
uncaught exception (`netFail`). -/
def get_soup_for_topic (env : Env) (topic : String) : Except WikiError (Doc × String) :=
  let sanitized := sp2us topic
  match env.fetch (build_wiki_url sanitized) with
  | .netErr => .error .netFail
  | .resp status doc =>
    if status = 200 then .ok (doc, sanitized)
    else
      match search_wikipedia env (us2sp topic) with
      | .error e => .error e
      | .ok none => .error (.noPage topic)
      | .ok (some m) =>
        let sanitized2 := sp2us m
        match env.fetch (build_wiki_url sanitized2) with
        | .netErr => .error .netFail
        | .resp s2 doc2 =>
          if s2 = 200 then .ok (doc2, sanitized2)
          else .error (.badStatus m s2)

/-- `scraper.find_internal_links`: the anchors selected by
`div.mw-parser-output a[href^='/wiki/']`, minus those whose href contains
a colon, each turned into a full URL.  Document order, no deduplication. -/
def find_internal_links (doc : Doc) : List String :=
  ((doc.anchors.filter (fun h => strStartsWith h "/wiki/")).filter
      (fun h => !(strHasChar h ':'))).map
    (fun h => strAppend "https://en.wikipedia.org" h)

/-- Number of words of Python `len(text.split())`: maximal runs of
non-whitespace characters.  The flag records being inside a word. -/
def wcAux (inWord : Bool) : List Char → Nat
  | [] => 0
  | c :: cs =>
    if isSpaceChar c then wcAux false cs
    else (if inWord then 0 else 1) + wcAux true cs

/-- Python `len(text.split())`. -/
def wordCount (s : String) : Nat := wcAux false s.toList

/-- `scraper.get_first_paragraph`: the first paragraph text that is
non-empty and has more than 15 words, or `""`. -/
def get_first_paragraph (doc : Doc) : String :=
  match doc.paragraphs.find? (fun t => !(t == "") && decide (15 < wordCount t)) with
  | some t => t
  | none => ""

/-- `scraper.get_categories`: the category list items, or `[]` when the
`#mw-normal-catlinks` container is absent. -/
def get_categories (doc : Doc) : List String :=
  match doc.catlinks with
  | none => []
  | some lis => lis

/-! ## the pipeline (app.py `index` and cli.py `main`) -/

/-- Scan for `url.rsplit("/wiki/", 1)[-1]`: walk the list keeping, as the
answer, the suffix following the most recent occurrence of `sep`; the
initial answer is the whole list (no occurrence). -/
def rsplitGo (sep : List Char) : List Char → List Char → List Char
  | acc, [] => acc
  | acc, c :: cs =>
    if sep.isPrefixOf (c :: cs) then rsplitGo sep ((c :: cs).drop sep.length) cs
    else rsplitGo sep acc cs

/-- Python `url.rsplit("/wiki/", 1)[-1]`: the part after the last
occurrence of `"/wiki/"`, or the whole string if it does not occur. -/
def subtopicOf (url : String) : String :=
  String.mk (rsplitGo "/wiki/".toList url.toList url.toList)

/-- The `main_article` dict of `app.index`: excerpt and categories are
filled in only in `summaries` or `filtered` mode. -/
def mkMainItem (mode : String) (doc : Doc) (actual_topic : String) : Item :=
  let base : Item := {
    title := us2sp actual_topic
    url := strAppend "https://en.wikipedia.org/wiki/" actual_topic
    excerpt := ""
    categories := [] }
  if mode = "summaries" ∨ mode = "filtered" then
    { base with
        excerpt := clean_text (get_first_paragraph doc)
        categories := get_categories doc }
  else base

/-- A related-page `item` dict of `app.index`: excerpt and categories are
filled in only in `summaries` or `filtered` mode. -/
def mkAppItem (mode : String) (url : String) (doc : Doc) : Item :=
  let base : Item := {
    title := us2sp (subtopicOf url)
    url := url
    excerpt := ""
    categories := [] }
  if mode = "summaries" ∨ mode = "filtered" then
    { base with
        excerpt := clean_text (get_first_paragraph doc)
        categories := get_categories doc }
  else base

/-- A related-page dict of `cli.main`: the excerpt is filled in only in
`summaries` or `filtered` mode, but the categories are always taken from
the fetched page (`# Always grab the categories`). -/
def mkCliItem (mode : String) (url : String) (doc : Doc) : Item :=
  { title := subtopicOf url
    url := url
    excerpt :=
      if mode = "summaries" ∨ mode = "filtered" then
        clean_text (get_first_paragraph doc)
      else ""
    categories := get_categories doc }

/-- The related-pages loop of `app.index`: resolve each link's subtopic;
a link whose resolution raises is skipped (`except Exception: continue`). -/
def fetchRelatedApp (env : Env) (mode : String) : List String → List Item
  | [] => []
  | url :: rest =>
    match get_soup_for_topic env (subtopicOf url) with
    | .error _ => fetchRelatedApp env mode rest
    | .ok (d, _) => mkAppItem mode url d :: fetchRelatedApp env mode rest

/-- The related-pages loop of `cli.main`, with the same skip-on-failure
control flow. -/
def fetchRelatedCli (env : Env) (mode : String) : List String → List Item
  | [] => []
  | url :: rest =>
    match get_soup_for_topic env (subtopicOf url) with
    | .error _ => fetchRelatedCli env mode rest
    | .ok (d, _) => mkCliItem mode url d :: fetchRelatedCli env mode rest

/-- The data `app.index` passes to `results.html`. -/
structure PipelineResult where
  original : String
  main : Item
  related : List Item
  mode : String
  keywords : List String
  limit : Nat
deriving DecidableEq, Repr

/-- `app.index` on a POST request: resolve the main topic (failure renders
the error page), build the main article dict, fetch up to `limit` related
pages, and in `filtered` mode with non-empty keywords filter the related
list (the default filter mode `"or"`). -/
def index (env : Env) (raw_topic mode : String) (limit : Nat)
    (keywords : List String) : Except WikiError PipelineResult :=
  match get_soup_for_topic env raw_topic with
  | .error e => .error e
  | .ok (main_soup, actual_topic) =>
    let main_article := mkMainItem mode main_soup actual_topic
    let all_links := (find_internal_links main_soup).take limit
    let related := fetchRelatedApp env mode all_links
    let related :=
      if mode = "filtered" ∧ keywords ≠ [] then
        filter_by_keyword related keywords
      else related
    .ok {
      original := us2sp raw_topic
      main := main_article
      related := related
      mode := mode
      keywords := keywords
      limit := limit }

/-- `cli.main`: resolve the topic (failure prints the error and returns),
fetch up to `limit` related pages, and in `filtered` mode with non-empty
keywords filter the results; returns the result list together with the
resolved topic (used to name output files). -/
def cli_main (env : Env) (topic mode : String) (limit : Nat)
    (keywords : List String) : Except WikiError (List Item × String) :=
  match get_soup_for_topic env topic with
  | .error e => .error e
  | .ok (soup, actual_topic) =>
    let links := (find_internal_links soup).take limit
    let results := fetchRelatedCli env mode links
    let results :=
      if mode = "filtered" ∧ keywords ≠ [] then
        filter_by_keyword results keywords
      else results
    .ok (results, actual_topic)

/-! ## Concrete test world

Small documents and environments used to instantiate the theorems below
on concrete inputs. -/

/-- Concrete article used as test data for the filter claims. -/
def taxItem : Item :=
  { title := "Tax", url := "https://en.wikipedia.org/wiki/Tax", excerpt := "", categories := [] }

/-- A main page with one qualifying internal link (`/wiki/Cat`), one
namespaced link and one non-wiki anchor. -/
def dogDoc : Doc := { anchors := ["/wiki/Cat", "/wiki/File:X.jpg", "#cite_note-1"],
                      paragraphs := [], catlinks := none }

/-- A related page carrying one category. -/
def catDoc : Doc := { anchors := [], paragraphs := [], catlinks := some ["Mammals"] }

/-- A page with no content at all. -/
def emptyDoc : Doc := { anchors := [], paragraphs := [], catlinks := none }

/-- A world where the `Dog` and `Cat` pages fetch fine and everything
else raises a transport error. -/
def envW : Env :=
  { fetch := fun u =>
      if u = "https://en.wikipedia.org/wiki/Dog" then .resp 200 dogDoc
      else if u = "https://en.wikipedia.org/wiki/Cat" then .resp 200 catDoc
      else .netErr
    search := fun _ => .fail }

/-- A world where every request raises a transport error. -/
def envFail : Env := { fetch := fun _ => .netErr, search := fun _ => .fail }

/-- A world where the direct fetch of `Doog` raises a transport error
while the search fallback would succeed (search yields `Dog`, whose page
fetches fine). -/
def envNoFallback : Env :=
  { fetch := fun u =>
      if u = "https://en.wikipedia.org/wiki/Dog" then .resp 200 emptyDoc
      else .netErr
    search := fun _ => .hits ["Dog"] }

/-- A world where every page answers with status 404 and the search
finds nothing. -/
def env404 : Env := { fetch := fun _ => .resp 404 emptyDoc, search := fun _ => .hits [] }

/-- A world where the main page `Dog` fetches fine but its single
related link cannot be resolved. -/
def envC6 : Env :=
  { fetch := fun u =>
      if u = "https://en.wikipedia.org/wiki/Dog" then .resp 200 dogDoc
      else .netErr
    search := fun _ => .fail }

/-- The result of the `links`-mode web run on `envW`. -/
def rLinks : PipelineResult :=
  { original := "Dog"
    main := { title := "Dog", url := "https://en.wikipedia.org/wiki/Dog",
              excerpt := "", categories := [] }
    related := [{ title := "Cat", url := "https://en.wikipedia.org/wiki/Cat",
                  excerpt := "", categories := [] }]
    mode := "links", keywords := [], limit := 1 }

/-- The result of the `filtered`-mode web run on `envW` with keyword
`mammals`. -/
def rFiltered : PipelineResult :=
  { original := "Dog"
    main := { title := "Dog", url := "https://en.wikipedia.org/wiki/Dog",
              excerpt := "", categories := [] }
    related := [{ title := "Cat", url := "https://en.wikipedia.org/wiki/Cat",
                  excerpt := "", categories := ["Mammals"] }]
    mode := "filtered", keywords := ["mammals"], limit := 1 }

/-! ## Properties of the text normalizer -/

/-- Every whitespace character of `l` is the plain space `' '`. -/
def onlyPlainSpace (l : List Char) : Prop :=
  ∀ c ∈ l, isSpaceChar c = true → c = ' '

/-- No two adjacent whitespace characters. -/
def noAdjWS (l : List Char) : Prop :=
  l.Chain' (fun a b => ¬(isSpaceChar a = true ∧ isSpaceChar b = true))

/-- No whitespace character immediately before a punctuation mark. -/
def noWSPunct (l : List Char) : Prop :=
  l.Chain' (fun a b => ¬(isSpaceChar a = true ∧ isPunct b = true))

/-- The first character, when present, is not whitespace. -/
def headNotWS (l : List Char) : Prop :=
  ∀ c ∈ l.head?, isSpaceChar c = false

/-- The last character, when present, is not whitespace. -/
def lastNotWS (l : List Char) : Prop :=
  ∀ c ∈ l.getLast?, isSpaceChar c = false

theorem collapseWS_head (cs : List Char) :
    ∀ d, (collapseWS (d :: cs)).head? = some (if isSpaceChar d then ' ' else d) := by
  induction cs with
  | nil =>
    intro d
    cases h : isSpaceChar d <;> simp [collapseWS, h]
  | cons e cs' ih =>
    intro d
    cases hd : isSpaceChar d <;> cases he : isSpaceChar e <;>
      simp [collapseWS, hd, he, ih e]

theorem onlyPlainSpace_collapseWS (l : List Char) : onlyPlainSpace (collapseWS l) := by
  induction l with
  | nil => intro c hc; simp [collapseWS] at hc
  | cons c cs ih =>
    cases cs with
    | nil =>
      intro c' hc' hws
      cases h : isSpaceChar c
      · simp only [collapseWS, h, Bool.false_eq_true, ite_false, List.mem_singleton] at hc'
        subst hc'
        rw [hws] at h
        exact absurd h (by simp)
      · simp only [collapseWS, h, ite_true, List.mem_singleton] at hc'
        exact hc'
    | cons d cs' =>
      intro c' hc' hws
      cases hc : isSpaceChar c
      · simp only [collapseWS, hc, Bool.false_eq_true, ite_false, List.mem_cons] at hc'
        rcases hc' with h | h
        · subst h; rw [hws] at hc; exact absurd hc (by simp)
        · exact ih c' h hws
      · cases hd : isSpaceChar d
        · simp only [collapseWS, hc, hd, ite_true, Bool.false_eq_true, ite_false,
            List.mem_cons] at hc'
          rcases hc' with h | h
          · exact h
          · exact ih c' h hws
        · simp only [collapseWS, hc, hd, ite_true] at hc'
          exact ih c' hc' hws

theorem noAdjWS_collapseWS (l : List Char) : noAdjWS (collapseWS l) := by
  induction l with
  | nil => simp [collapseWS, noAdjWS]
  | cons c cs ih =>
    cases cs with
    | nil =>
      cases h : isSpaceChar c <;> simp [collapseWS, h, noAdjWS]
    | cons d cs' =>
      cases hc : isSpaceChar c <;> cases hd : isSpaceChar d <;>
        simp only [collapseWS, hc, hd, ite_true, Bool.false_eq_true, ite_false]
      · refine List.chain'_cons'.mpr ⟨?_, ih⟩
        intro y _
        simp [hc]
      · refine List.chain'_cons'.mpr ⟨?_, ih⟩
        intro y _
        simp [hc]
      · refine List.chain'_cons'.mpr ⟨?_, ih⟩
        intro y hy
        rw [collapseWS_head cs' d] at hy
        simp only [hd, Bool.false_eq_true, ite_false, Option.mem_def, Option.some.injEq] at hy
        subst hy
        simp [hd]
      · exact ih

theorem chain'_dropWhile {R : Char → Char → Prop} (p : Char → Bool) :
    ∀ l : List Char, l.Chain' R → (l.dropWhile p).Chain' R := by
  intro l
  induction l with
  | nil => intro _; simp
  | cons c cs ih =>
    intro h
    rw [List.dropWhile_cons]
    cases hp : p c
    · simpa [hp] using h
    · simpa [hp] using ih h.tail

theorem chain'_reverse_symm {R : Char → Char → Prop}
    (hs : ∀ a b, R a b → R b a) {l : List Char} (h : l.Chain' R) :
    l.reverse.Chain' R :=
  List.chain'_reverse.mpr (h.imp fun a b hab => hs a b hab)

theorem mem_pyStrip {c : Char} {l : List Char} (h : c ∈ pyStrip l) : c ∈ l := by
  unfold pyStrip at h
  rw [List.mem_reverse] at h
  have h2 := (List.dropWhile_sublist isSpaceChar).subset h
  rw [List.mem_reverse] at h2
  exact (List.dropWhile_sublist isSpaceChar).subset h2

theorem chain'_pyStrip_symm {R : Char → Char → Prop}
    (hs : ∀ a b, R a b → R b a) {l : List Char} (h : l.Chain' R) :
    (pyStrip l).Chain' R := by
  unfold pyStrip
  exact chain'_reverse_symm hs (chain'_dropWhile _ _ (chain'_reverse_symm hs
    (chain'_dropWhile _ _ h)))

theorem head?_dropWhile_mem (p : Char → Bool) :
    ∀ (l : List Char) (c : Char), c ∈ (l.dropWhile p).head? → p c = false := by
  intro l
  induction l with
  | nil => intro c hc; simp at hc
  | cons d ds ih =>
    intro c hc
    rw [List.dropWhile_cons] at hc
    cases hp : p d
    · simp only [hp, Bool.false_eq_true, ite_false, List.head?_cons, Option.mem_def,
        Option.some.injEq] at hc
      subst hc
      exact hp
    · simp only [hp, ite_true] at hc
      exact ih c hc

theorem getLast?_dropWhile_ne_nil (p : Char → Bool) :
    ∀ l : List Char, l.dropWhile p ≠ [] → (l.dropWhile p).getLast? = l.getLast? := by
  intro l
  induction l with
  | nil => intro h; simp at h
  | cons d ds ih =>
    intro h
    rw [List.dropWhile_cons] at h ⊢
    cases hp : p d
    · simp [hp]
    · simp only [hp, ite_true] at h ⊢
      have hds : ds ≠ [] := by
        intro he
        subst he
        simp at h
      rw [ih h]
      cases ds with
      | nil => exact absurd rfl hds
      | cons e es => simp

theorem headNotWS_pyStrip (l : List Char) : headNotWS (pyStrip l) := by
  intro c hc
  unfold pyStrip at hc
  rw [List.head?_reverse] at hc
  by_cases hnil : (l.dropWhile isSpaceChar).reverse.dropWhile isSpaceChar = []
  · rw [hnil] at hc
    simp at hc
  · rw [getLast?_dropWhile_ne_nil isSpaceChar _ hnil, List.getLast?_reverse] at hc
    exact head?_dropWhile_mem isSpaceChar _ c hc

theorem lastNotWS_pyStrip (l : List Char) : lastNotWS (pyStrip l) := by
  intro c hc
  unfold pyStrip at hc
  rw [List.getLast?_reverse] at hc
  exact head?_dropWhile_mem isSpaceChar _ c hc

theorem rmWS_cons_nonws {c : Char} (cs : List Char) (h : isSpaceChar c = false) :
    rmWS (c :: cs) = c :: rmWS cs := by
  simp [rmWS, h]

theorem rmWS_cons_ws_punct {c d : Char} {cs : List Char} (hc : isSpaceChar c = true)
    (hh : (rmWS cs).head? = some d) (hp : isPunct d = true) :
    rmWS (c :: cs) = rmWS cs := by
  rw [rmWS, hc]
  simp only [ite_true, hh, hp]

theorem rmWS_cons_ws_nopunct {c d : Char} {cs : List Char} (hc : isSpaceChar c = true)
    (hh : (rmWS cs).head? = some d) (hp : isPunct d = false) :
    rmWS (c :: cs) = c :: rmWS cs := by
  rw [rmWS, hc]
  simp only [ite_true, hh, hp, Bool.false_eq_true, ite_false]

theorem rmWS_cons_ws_nil {c : Char} {cs : List Char} (hc : isSpaceChar c = true)
    (hh : (rmWS cs).head? = none) :
    rmWS (c :: cs) = c :: rmWS cs := by
  rw [rmWS, hc]
  simp only [ite_true, hh]

/-- Case analysis on one step of `rmWS`: the result either keeps the head
in front of the recursive result, or (head whitespace before punctuation)
drops it. -/
theorem rmWS_cons_cases (c : Char) (cs : List Char) :
    rmWS (c :: cs) = c :: rmWS cs ∨
      (isSpaceChar c = true ∧ rmWS (c :: cs) = rmWS cs ∧
        ∃ d, (rmWS cs).head? = some d ∧ isPunct d = true) := by
  cases hc : isSpaceChar c
  · exact Or.inl (rmWS_cons_nonws cs hc)
  · cases hh : (rmWS cs).head? with
    | none => exact Or.inl (rmWS_cons_ws_nil hc hh)
    | some d =>
      cases hp : isPunct d
      · exact Or.inl (rmWS_cons_ws_nopunct hc hh hp)
      · exact Or.inr ⟨rfl, rmWS_cons_ws_punct hc hh hp, d, rfl, hp⟩

theorem rmWS_sublist : ∀ l : List Char, List.Sublist (rmWS l) l := by
  intro l
  induction l with
  | nil => simp [rmWS]
  | cons c cs ih =>
    rcases rmWS_cons_cases c cs with h | ⟨_, h, _⟩
    · rw [h]; exact ih.cons₂ c
    · rw [h]; exact ih.cons c

theorem rmWS_ne_nil (c : Char) (cs : List Char) : rmWS (c :: cs) ≠ [] := by
  rcases rmWS_cons_cases c cs with h | ⟨_, h, d, hh, _⟩
  · rw [h]; simp
  · rw [h]
    intro he
    rw [he] at hh
    simp at hh

theorem noWSPunct_rmWS (l : List Char) : noWSPunct (rmWS l) := by
  induction l with
  | nil => simp [rmWS, noWSPunct]
  | cons c cs ih =>
    rcases rmWS_cons_cases c cs with h | ⟨_, h, _⟩
    · rw [h]
      refine List.chain'_cons'.mpr ⟨?_, ih⟩
      intro y hy
      cases hc : isSpaceChar c
      · simp [hc]
      · -- the head was kept although it is whitespace: if the next
        -- character were punctuation the drop branch would have fired
        simp only [Option.mem_def] at hy
        cases hp : isPunct y
        · simp [hp]
        · rw [rmWS_cons_ws_punct hc hy hp] at h
          have := congrArg List.length h
          simp at this
    · rw [h]; exact ih

theorem noAdjWS_rmWS {l : List Char} (h : noAdjWS l) : noAdjWS (rmWS l) := by
  induction l with
  | nil => simpa [rmWS] using h
  | cons c cs ih =>
    rcases rmWS_cons_cases c cs with heq | ⟨_, heq, _⟩
    · rw [heq]
      refine List.chain'_cons'.mpr ⟨?_, ih h.tail⟩
      intro y hy
      cases hc : isSpaceChar c
      · simp [hc]
      · -- head is whitespace: by noAdjWS the next source character is not
        -- whitespace, hence the recursive result starts with it
        cases cs with
        | nil =>
          simp [rmWS] at hy
        | cons e cs' =>
          have he : isSpaceChar e = false := by
            have h1 := (List.chain'_cons'.mp h).1 e (by simp)
            cases hee : isSpaceChar e
            · rfl
            · exact absurd ⟨hc, hee⟩ h1
          rw [rmWS_cons_nonws cs' he] at hy
          simp only [List.head?_cons, Option.mem_def, Option.some.injEq] at hy
          subst hy
          simp [he]
    · rw [heq]; exact ih h.tail

theorem headNotWS_rmWS {l : List Char} (h : headNotWS l) : headNotWS (rmWS l) := by
  cases l with
  | nil => simpa [rmWS] using h
  | cons c cs =>
    have hc : isSpaceChar c = false := h c (by simp)
    rw [rmWS_cons_nonws cs hc]
    intro y hy
    simp only [List.head?_cons, Option.mem_def, Option.some.injEq] at hy
    subst hy
    exact hc

theorem lastNotWS_cons {c : Char} {cs : List Char} (h : lastNotWS (c :: cs))
    (hne : cs ≠ []) : lastNotWS cs := by
  intro y hy
  apply h y
  cases cs with
  | nil => exact absurd rfl hne
  | cons e es => simpa using hy

theorem getLast?_cons_ne_nil {c : Char} {z : List Char} (hz : z ≠ []) :
    (c :: z).getLast? = z.getLast? := by
  cases z with
  | nil => exact absurd rfl hz
  | cons w ws => simp

theorem lastNotWS_rmWS {l : List Char} (h : lastNotWS l) : lastNotWS (rmWS l) := by
  induction l with
  | nil => simpa [rmWS] using h
  | cons c cs ih =>
    cases cs with
    | nil =>
      have hc : isSpaceChar c = false := h c (by simp)
      rw [rmWS_cons_nonws [] hc]
      simpa [rmWS] using h
    | cons e cs' =>
      have hcs : lastNotWS (e :: cs') := lastNotWS_cons h (by simp)
      have hrest := ih hcs
      have hne : rmWS (e :: cs') ≠ [] := rmWS_ne_nil e cs'
      rcases rmWS_cons_cases c (e :: cs') with heq | ⟨_, heq, _⟩
      · rw [heq]
        intro y hy
        rw [getLast?_cons_ne_nil hne] at hy
        exact hrest y hy
      · rw [heq]; exact hrest

theorem rmWS_fix {l : List Char} (h : noWSPunct l) : rmWS l = l := by
  induction l with
  | nil => simp [rmWS]
  | cons c cs ih =>
    have hcs := ih h.tail
    cases hc : isSpaceChar c
    · rw [rmWS_cons_nonws cs hc, hcs]
    · cases cs with
      | nil => rw [rmWS_cons_ws_nil hc (by simp [rmWS])]; rw [hcs]
      | cons e cs' =>
        have hp : isPunct e = false := by
          have h1 := (List.chain'_cons'.mp h).1 e (by simp)
          cases hpe : isPunct e
          · rfl
          · exact absurd ⟨hc, hpe⟩ h1
        have hh : (rmWS (e :: cs')).head? = some e := by
          rw [hcs]
          rfl
        rw [rmWS_cons_ws_nopunct hc hh hp, hcs]

theorem pyStrip_fix {l : List Char} (h1 : headNotWS l) (h2 : lastNotWS l) :
    pyStrip l = l := by
  have dw : ∀ m : List Char, headNotWS m → m.dropWhile isSpaceChar = m := by
    intro m hm
    cases m with
    | nil => rfl
    | cons c cs =>
      rw [List.dropWhile_cons, hm c (by simp)]
      simp
  have h1r : headNotWS l.reverse := by
    intro c hc
    rw [List.head?_reverse] at hc
    exact h2 c hc
  unfold pyStrip
  rw [dw l h1, dw l.reverse h1r, List.reverse_reverse]

theorem collapseWS_fix : ∀ {l : List Char}, onlyPlainSpace l → noAdjWS l →
    collapseWS l = l := by
  intro l
  induction l with
  | nil => intro _ _; rfl
  | cons c cs ih =>
    intro hnw hnd
    cases cs with
    | nil =>
      cases hc : isSpaceChar c
      · simp [collapseWS, hc]
      · have : c = ' ' := hnw c (by simp) hc
        simp [collapseWS, hc, this]
    | cons d cs' =>
      have hnw' : onlyPlainSpace (d :: cs') := by
        intro x hx hwx
        exact hnw x (List.mem_cons_of_mem c hx) hwx
      have htl := ih hnw' hnd.tail
      cases hc : isSpaceChar c
      · simp only [collapseWS, hc, Bool.false_eq_true, ite_false]
        rw [htl]
      · have hceq : c = ' ' := hnw c (by simp) hc
        have hd : isSpaceChar d = false := by
          have := (List.chain'_cons'.mp hnd).1 d (by simp)
          cases hdd : isSpaceChar d
          · rfl
          · exact absurd ⟨hc, hdd⟩ this
        simp only [collapseWS, hc, hd, Bool.false_eq_true, ite_false, ite_true]
        rw [htl, hceq]

/-- C7: `clean` is idempotent, and its output never contains two
consecutive space characters nor a space immediately before one of the
punctuation marks `.,!?;:`. -/
theorem clean_text_spec (x : String) :
    clean_text (clean_text x) = clean_text x
    ∧ (clean_text x).toList.Chain' (fun a b => ¬(a = ' ' ∧ b = ' '))
    ∧ (clean_text x).toList.Chain' (fun a b => ¬(a = ' ' ∧ isPunct b = true)) := by
  have hNW1 := onlyPlainSpace_collapseWS x.toList
  have hND1 := noAdjWS_collapseWS x.toList
  have hNW2 : onlyPlainSpace (pyStrip (collapseWS x.toList)) :=
    fun c hc hw => hNW1 c (mem_pyStrip hc) hw
  have hND2 : noAdjWS (pyStrip (collapseWS x.toList)) :=
    chain'_pyStrip_symm (fun a b hab h => hab ⟨h.2, h.1⟩) hND1
  have hH2 := headNotWS_pyStrip (collapseWS x.toList)
  have hL2 := lastNotWS_pyStrip (collapseWS x.toList)
  have hNW3 : onlyPlainSpace (rmWS (pyStrip (collapseWS x.toList))) :=
    fun c hc hw => hNW2 c ((rmWS_sublist _).subset hc) hw
  have hND3 : noAdjWS (rmWS (pyStrip (collapseWS x.toList))) := noAdjWS_rmWS hND2
  have hNP3 : noWSPunct (rmWS (pyStrip (collapseWS x.toList))) := noWSPunct_rmWS _
  have hH3 : headNotWS (rmWS (pyStrip (collapseWS x.toList))) := headNotWS_rmWS hH2
  have hL3 : lastNotWS (rmWS (pyStrip (collapseWS x.toList))) := lastNotWS_rmWS hL2
  have hout : (clean_text x).toList = rmWS (pyStrip (collapseWS x.toList)) := rfl
  refine ⟨?_, ?_, ?_⟩
  · show String.mk (rmWS (pyStrip (collapseWS (clean_text x).toList))) = clean_text x
    rw [hout, collapseWS_fix hNW3 hND3, pyStrip_fix hH3 hL3, rmWS_fix hNP3]
    rfl
  · rw [hout]
    exact List.Chain'.imp
      (fun a b hab h => hab ⟨by rw [h.1]; rfl, by rw [h.2]; rfl⟩) hND3
  · rw [hout]
    exact List.Chain'.imp
      (fun a b hab h => hab ⟨by rw [h.1]; rfl, h.2⟩) hNP3

/-! ## Properties of the keyword filter -/

theorem kwMatches_nil_and (item : Item) : kwMatches [] "and" item = true := by
  simp [kwMatches]

theorem kwMatches_nil_other {mode : String} (h : mode ≠ "and") (item : Item) :
    kwMatches [] mode item = false := by
  simp [kwMatches, h]

/-- C2 (amended): with an empty keyword sequence, `filter_by_keyword`
returns the whole input unchanged in mode `"and"` (`all` of an empty
sequence holds), and the empty list in every other mode (`any` of an
empty sequence fails). -/
theorem filter_empty_keywords (items : List Item) (mode : String) :
    filter_by_keyword items [] mode = if mode = "and" then items else [] := by
  by_cases h : mode = "and"
  · rw [if_pos h, h]
    refine List.filter_eq_self.mpr ?_
    intro a _
    exact kwMatches_nil_and a
  · rw [if_neg h]
    refine List.filter_eq_nil_iff.mpr ?_
    intro a _
    simp [kwMatches_nil_other h a]

/-- C2 counterexample: with an empty keyword sequence and the default
mode `"or"` the filter returns the empty list, not the input unchanged. -/
theorem filter_empty_keywords_cex :
    filter_by_keyword [taxItem] [] "or" ≠ [taxItem] := by decide

/-- C3 (amended): for a non-empty keyword sequence, every item retained
by the filter in AND mode is also retained in OR mode. -/
theorem and_subset_or (items : List Item) (kws : List String) (item : Item)
    (hk : kws ≠ [])
    (h : item ∈ filter_by_keyword items kws "and") :
    item ∈ filter_by_keyword items kws "or" := by
  have h' := List.mem_filter.mp h
  refine List.mem_filter.mpr ⟨h'.1, ?_⟩
  have hall : ∀ kw ∈ kws, strContainsSub (text_blob item) (strLower kw) = true := by
    have h2 := h'.2
    simp only [kwMatches, if_pos rfl] at h2
    exact fun kw hkw => List.all_eq_true.mp h2 kw hkw
  cases kws with
  | nil => exact absurd rfl hk
  | cons k ks =>
    simp only [kwMatches]
    rw [if_neg (by decide : ¬(("or" : String) = "and"))]
    exact List.any_eq_true.mpr ⟨k, by simp, hall k (by simp)⟩

/-- C3 counterexample: with the empty keyword sequence, an item retained
in AND mode (all of nothing holds) is not retained in OR mode (any of
nothing fails), so OR is not a superset of AND for every input. -/
theorem and_subset_or_cex :
    taxItem ∈ filter_by_keyword [taxItem] [] "and"
    ∧ taxItem ∉ filter_by_keyword [taxItem] [] "or" := by decide

/-- Witness for the amended C3 at a concrete input. -/
theorem and_subset_or_witness :
    (["ax"] ≠ ([] : List String))
    ∧ taxItem ∈ filter_by_keyword [taxItem] ["ax"] "and"
    ∧ taxItem ∈ filter_by_keyword [taxItem] ["ax"] "or" :=
  ⟨by decide, by decide, and_subset_or [taxItem] ["ax"] taxItem (by decide) (by decide)⟩

/-- C10: `filter_by_keyword` never validates its mode argument; every
mode string other than the exact lowercase `"and"` (for example `"AND"`,
`"And"`, or arbitrary strings) takes the `else` branch and behaves
exactly like OR mode. -/
theorem filter_mode_defaults_or (items : List Item) (kws : List String)
    (mode : String) (h : mode ≠ "and") :
    filter_by_keyword items kws mode = filter_by_keyword items kws "or" := by
  unfold filter_by_keyword
  congr 1
  funext item
  simp only [kwMatches]
  rw [if_neg h, if_neg (by decide : ¬(("or" : String) = "and"))]

/-- Witness for C10 at the concrete mode string `"AND"`. -/
theorem filter_mode_defaults_or_witness :
    (("AND" : String) ≠ "and")
    ∧ filter_by_keyword [taxItem] ["ax"] "AND" = filter_by_keyword [taxItem] ["ax"] "or" :=
  ⟨by decide, filter_mode_defaults_or [taxItem] ["ax"] "AND" (by decide)⟩

/-! ## Properties of the link extractor -/

theorem isPrefixOf_exists : ∀ {p l : List Char}, p.isPrefixOf l = true → ∃ t, l = p ++ t := by
  intro p
  induction p with
  | nil => intro l _; exact ⟨l, rfl⟩
  | cons a as ih =>
    intro l h
    cases l with
    | nil => simp [List.isPrefixOf] at h
    | cons b bs =>
      simp only [List.isPrefixOf, Bool.and_eq_true, beq_iff_eq] at h
      obtain ⟨rfl, h2⟩ := h
      obtain ⟨t, rfl⟩ := ih h2
      exact ⟨t, rfl⟩

/-- C8: `find_internal_links` returns exactly the anchors of the main
content container whose target starts with `/wiki/` and contains no
colon, as full absolute URLs, in document order and without
deduplication (the `filter`/`map` image keeps duplicates and order); and
no returned URL has a colon in its path segment after the
`https://en.wikipedia.org/wiki/` prefix (its first 30 characters). -/
theorem find_internal_links_spec (doc : Doc) :
    find_internal_links doc
      = (doc.anchors.filter
          (fun h => strStartsWith h "/wiki/" && !(strHasChar h ':'))).map
          (fun h => strAppend "https://en.wikipedia.org" h)
    ∧ ∀ u ∈ find_internal_links doc, ∀ c ∈ u.toList.drop 30, c ≠ ':' := by
  constructor
  · rw [find_internal_links, List.filter_filter]
    simp only [Bool.and_comm]
  · intro u hu c hc
    rw [find_internal_links] at hu
    obtain ⟨h, hmem, rfl⟩ := List.mem_map.mp hu
    have h2 := List.mem_filter.mp hmem
    have hpre : strStartsWith h "/wiki/" = true := (List.mem_filter.mp h2.1).2
    have hcol : strHasChar h ':' = false := by
      have := h2.2
      simpa using this
    obtain ⟨t, ht⟩ := isPrefixOf_exists (p := "/wiki/".toList) hpre
    have hdrop : (strAppend "https://en.wikipedia.org" h).toList.drop 30 = t := by
      show ("https://en.wikipedia.org".toList ++ h.toList).drop 30 = t
      rw [ht, ← List.append_assoc]
      exact List.drop_left' (by decide)
    rw [hdrop] at hc
    intro hcc
    subst hcc
    have hmem' : (':' : Char) ∈ h.toList := by
      rw [ht]
      exact List.mem_append_right _ hc
    have : strHasChar h ':' = true :=
      List.any_eq_true.mpr ⟨':', hmem', by simp⟩
    rw [this] at hcol
    exact absurd hcol (by simp)

/-- Witness for C8 on a concrete document with one qualifying link. -/
theorem find_internal_links_spec_witness :
    find_internal_links dogDoc
      = (dogDoc.anchors.filter
          (fun h => strStartsWith h "/wiki/" && !(strHasChar h ':'))).map
          (fun h => strAppend "https://en.wikipedia.org" h)
    ∧ (':' ∉ ("https://en.wikipedia.org/wiki/Cat" : String).toList.drop 30) :=
  ⟨(find_internal_links_spec dogDoc).1,
   fun hmem => (find_internal_links_spec dogDoc).2
     "https://en.wikipedia.org/wiki/Cat" (by decide) ':' hmem rfl⟩

/-! ## Properties of the resolver -/

/-- C4 (amended): when the direct fetch completes with a non-success
status, the resolver falls back to exactly one search query: a search
returning no hits yields the error naming the original topic; a hit whose
sanitized page fetches with status 200 is returned; a hit whose page
answers a non-success status yields the error naming the attempted match
and that status, with no further fallback; a search failure or a
transport error on the second fetch propagates.  A transport error on
the direct fetch, however, propagates immediately with no fallback
attempt. -/
theorem resolver_fallback_spec :
    (∀ (env : Env) (topic : String) (s : Nat) (d : Doc),
      env.fetch (build_wiki_url (sp2us topic)) = .resp s d → s ≠ 200 →
      (env.search (us2sp topic) = .hits [] →
        get_soup_for_topic env topic = .error (.noPage topic))
      ∧ (∀ m rest d2, env.search (us2sp topic) = .hits (m :: rest) →
          env.fetch (build_wiki_url (sp2us m)) = .resp 200 d2 →
          get_soup_for_topic env topic = .ok (d2, sp2us m))
      ∧ (∀ m rest s2 d2, env.search (us2sp topic) = .hits (m :: rest) →
          env.fetch (build_wiki_url (sp2us m)) = .resp s2 d2 → s2 ≠ 200 →
          get_soup_for_topic env topic = .error (.badStatus m s2))
      ∧ (env.search (us2sp topic) = .fail →
          get_soup_for_topic env topic = .error .netFail)
      ∧ (∀ m rest, env.search (us2sp topic) = .hits (m :: rest) →
          env.fetch (build_wiki_url (sp2us m)) = .netErr →
          get_soup_for_topic env topic = .error .netFail))
    ∧ (∀ (env : Env) (topic : String),
        env.fetch (build_wiki_url (sp2us topic)) = .netErr →
        get_soup_for_topic env topic = .error .netFail) := by
  constructor
  · intro env topic s d hf hs
    refine ⟨?_, ?_, ?_, ?_, ?_⟩
    · intro hsr
      simp [get_soup_for_topic, hf, hs, search_wikipedia, hsr]
    · intro m rest d2 hsr hf2
      simp [get_soup_for_topic, hf, hs, search_wikipedia, hsr, hf2]
    · intro m rest s2 d2 hsr hf2 hs2
      simp [get_soup_for_topic, hf, hs, search_wikipedia, hsr, hf2, hs2]
    · intro hsr
      simp [get_soup_for_topic, hf, hs, search_wikipedia, hsr]
    · intro m rest hsr hf2
      simp [get_soup_for_topic, hf, hs, search_wikipedia, hsr, hf2]
  · intro env topic hf
    simp [get_soup_for_topic, hf]

/-- C4 counterexample: the direct fetch of `Doog` dies with a transport
error; the search fallback would have succeeded (search yields `Dog`
whose page answers 200), but the resolver performs no fallback and fails
with the propagated transport error instead of returning the `Dog`
page. -/
theorem resolver_fallback_cex :
    envNoFallback.fetch (build_wiki_url (sp2us "Doog")) = .netErr
    ∧ envNoFallback.search (us2sp "Doog") = .hits ["Dog"]
    ∧ envNoFallback.fetch (build_wiki_url (sp2us "Dog")) = .resp 200 emptyDoc
    ∧ get_soup_for_topic envNoFallback "Doog" = .error .netFail
    ∧ get_soup_for_topic envNoFallback "Doog" ≠ .ok (emptyDoc, "Dog") := by
  refine ⟨rfl, rfl, rfl, rfl, fun h => ?_⟩
  have h4 : get_soup_for_topic envNoFallback "Doog"
      = .error .netFail := rfl
  exact Except.noConfusion (h4.symm.trans h)

/-- Witness for the amended C4: a 404 on the direct fetch with an empty
search result produces the error naming the original topic. -/
theorem resolver_fallback_witness :
    env404.fetch (build_wiki_url (sp2us "Zzz")) = .resp 404 emptyDoc
    ∧ ((404 : Nat) ≠ 200)
    ∧ env404.search (us2sp "Zzz") = .hits []
    ∧ get_soup_for_topic env404 "Zzz" = .error (.noPage "Zzz") :=
  ⟨rfl, by decide, rfl,
    (resolver_fallback_spec.1 env404 "Zzz" 404 emptyDoc rfl (by decide)).1 rfl⟩

/-! ## Properties of the pipeline -/

theorem mkAppItem_url (mode url : String) (d : Doc) : (mkAppItem mode url d).url = url := by
  by_cases h : mode = "summaries" ∨ mode = "filtered" <;> simp [mkAppItem, h]

theorem mkCliItem_url (mode url : String) (d : Doc) : (mkCliItem mode url d).url = url := rfl

/-- Unfolding of `index` on a resolved main topic. -/
theorem index_ok (env : Env) (raw mode : String) (limit : Nat) (kws : List String)
    (d : Doc) (t : String) (h : get_soup_for_topic env raw = .ok (d, t)) :
    index env raw mode limit kws = .ok {
      original := us2sp raw
      main := mkMainItem mode d t
      related :=
        if mode = "filtered" ∧ kws ≠ [] then
          filter_by_keyword (fetchRelatedApp env mode ((find_internal_links d).take limit)) kws
        else fetchRelatedApp env mode ((find_internal_links d).take limit)
      mode := mode, keywords := kws, limit := limit } := by
  simp only [index, h]

/-- Unfolding of `cli_main` on a resolved topic. -/
theorem cli_main_ok (env : Env) (raw mode : String) (limit : Nat) (kws : List String)
    (d : Doc) (t : String) (h : get_soup_for_topic env raw = .ok (d, t)) :
    cli_main env raw mode limit kws = .ok
      ((if mode = "filtered" ∧ kws ≠ [] then
          filter_by_keyword (fetchRelatedCli env mode ((find_internal_links d).take limit)) kws
        else fetchRelatedCli env mode ((find_internal_links d).take limit)), t) := by
  simp only [cli_main, h]

/-- C5: a failure to resolve the main topic aborts the whole request with
the error surfaced (web and CLI); when the main topic resolves, the run
succeeds whatever happens to the related links; and a related link whose
resolution fails is skipped — the loop output for `url :: rest` equals
the output for `rest` alone, so the remaining links are processed in
order and the failed link is absent. -/
theorem related_failures_nonfatal :
    (∀ (env : Env) (raw mode : String) (limit : Nat) (kws : List String) (e : WikiError),
      get_soup_for_topic env raw = .error e →
      index env raw mode limit kws = .error e
      ∧ cli_main env raw mode limit kws = .error e)
    ∧ (∀ (env : Env) (raw mode : String) (limit : Nat) (kws : List String) (d : Doc)
        (t : String), get_soup_for_topic env raw = .ok (d, t) →
      (∃ r, index env raw mode limit kws = .ok r)
      ∧ (∃ res, cli_main env raw mode limit kws = .ok res))
    ∧ (∀ (env : Env) (mode url : String) (rest : List String) (e : WikiError),
      get_soup_for_topic env (subtopicOf url) = .error e →
      fetchRelatedApp env mode (url :: rest) = fetchRelatedApp env mode rest
      ∧ fetchRelatedCli env mode (url :: rest) = fetchRelatedCli env mode rest) := by
  refine ⟨?_, ?_, ?_⟩
  · intro env raw mode limit kws e h
    constructor <;> simp [index, cli_main, h]
  · intro env raw mode limit kws d t h
    exact ⟨⟨_, index_ok env raw mode limit kws d t h⟩,
           ⟨_, cli_main_ok env raw mode limit kws d t h⟩⟩
  · intro env mode url rest e h
    constructor <;> simp [fetchRelatedApp, fetchRelatedCli, h]

/-- Witness for C5: a world where everything fails aborts both pipelines
with the surfaced transport error, and a failing related link is skipped
by both related-page loops. -/
theorem related_failures_nonfatal_witness :
    get_soup_for_topic envFail "Dog" = .error .netFail
    ∧ index envFail "Dog" "links" 5 [] = .error .netFail
    ∧ cli_main envFail "Dog" "links" 5 [] = .error .netFail
    ∧ fetchRelatedApp envFail "links" ["https://en.wikipedia.org/wiki/Cat"]
        = fetchRelatedApp envFail "links" []
    ∧ fetchRelatedCli envFail "links" ["https://en.wikipedia.org/wiki/Cat"]
        = fetchRelatedCli envFail "links" [] :=
  ⟨rfl,
   (related_failures_nonfatal.1 envFail "Dog" "links" 5 [] .netFail rfl).1,
   (related_failures_nonfatal.1 envFail "Dog" "links" 5 [] .netFail rfl).2,
   (related_failures_nonfatal.2.2 envFail "links"
     "https://en.wikipedia.org/wiki/Cat" [] .netFail rfl).1,
   (related_failures_nonfatal.2.2 envFail "links"
     "https://en.wikipedia.org/wiki/Cat" [] .netFail rfl).2⟩

theorem fetchRelatedApp_length_le (env : Env) (mode : String) :
    ∀ urls : List String, (fetchRelatedApp env mode urls).length ≤ urls.length := by
  intro urls
  induction urls with
  | nil => simp [fetchRelatedApp]
  | cons url rest ih =>
    cases h : get_soup_for_topic env (subtopicOf url) with
    | error e =>
      simp only [fetchRelatedApp, h, List.length_cons]
      exact Nat.le_succ_of_le ih
    | ok p =>
      simp only [fetchRelatedApp, h, List.length_cons]
      exact Nat.succ_le_succ ih

theorem fetchRelatedCli_length_le (env : Env) (mode : String) :
    ∀ urls : List String, (fetchRelatedCli env mode urls).length ≤ urls.length := by
  intro urls
  induction urls with
  | nil => simp [fetchRelatedCli]
  | cons url rest ih =>
    cases h : get_soup_for_topic env (subtopicOf url) with
    | error e =>
      simp only [fetchRelatedCli, h, List.length_cons]
      exact Nat.le_succ_of_le ih
    | ok p =>
      simp only [fetchRelatedCli, h, List.length_cons]
      exact Nat.succ_le_succ ih

theorem fetchRelatedApp_map_url (env : Env) (mode : String) :
    ∀ urls : List String,
      (∀ url ∈ urls, ∃ d t, get_soup_for_topic env (subtopicOf url) = Except.ok (d, t)) →
      (fetchRelatedApp env mode urls).map Item.url = urls := by
  intro urls
  induction urls with
  | nil => intro _; simp [fetchRelatedApp]
  | cons url rest ih =>
    intro hall
    obtain ⟨d, t, hd⟩ := hall url (by simp)
    simp only [fetchRelatedApp, hd, List.map_cons, mkAppItem_url]
    rw [ih (fun u hu => hall u (List.mem_cons_of_mem url hu))]

theorem fetchRelatedCli_map_url (env : Env) (mode : String) :
    ∀ urls : List String,
      (∀ url ∈ urls, ∃ d t, get_soup_for_topic env (subtopicOf url) = Except.ok (d, t)) →
      (fetchRelatedCli env mode urls).map Item.url = urls := by
  intro urls
  induction urls with
  | nil => intro _; simp [fetchRelatedCli]
  | cons url rest ih =>
    intro hall
    obtain ⟨d, t, hd⟩ := hall url (by simp)
    simp only [fetchRelatedCli, hd, List.map_cons, mkCliItem_url]
    rw [ih (fun u hu => hall u (List.mem_cons_of_mem url hu))]

/-- C6 (amended): the related list built before filtering — the
related-pages loop run on the first `limit` internal links — always has
length at most `limit`; and when every one of those links resolves, it
consists exactly of one item per link, in document order (its urls are
the taken prefix itself), so with at least `limit` qualifying links and
all of them resolving its length is exactly `limit`. -/
theorem related_prefix_spec :
    (∀ (env : Env) (mode : String) (doc : Doc) (limit : Nat),
      (fetchRelatedApp env mode ((find_internal_links doc).take limit)).length ≤ limit
      ∧ (fetchRelatedCli env mode ((find_internal_links doc).take limit)).length ≤ limit)
    ∧ (∀ (env : Env) (mode : String) (doc : Doc) (limit : Nat),
      (∀ url ∈ (find_internal_links doc).take limit,
        ∃ d t, get_soup_for_topic env (subtopicOf url) = Except.ok (d, t)) →
      (fetchRelatedApp env mode ((find_internal_links doc).take limit)).map Item.url
          = (find_internal_links doc).take limit
      ∧ (fetchRelatedCli env mode ((find_internal_links doc).take limit)).map Item.url
          = (find_internal_links doc).take limit)
    ∧ (∀ (env : Env) (mode : String) (doc : Doc) (limit : Nat),
      limit ≤ (find_internal_links doc).length →
      (∀ url ∈ (find_internal_links doc).take limit,
        ∃ d t, get_soup_for_topic env (subtopicOf url) = Except.ok (d, t)) →
      (fetchRelatedApp env mode ((find_internal_links doc).take limit)).length = limit
      ∧ (fetchRelatedCli env mode ((find_internal_links doc).take limit)).length = limit) := by
  refine ⟨?_, ?_, ?_⟩
  · intro env mode doc limit
    exact ⟨Nat.le_trans (fetchRelatedApp_length_le env mode _) (List.length_take_le _ _),
           Nat.le_trans (fetchRelatedCli_length_le env mode _) (List.length_take_le _ _)⟩
  · intro env mode doc limit hall
    exact ⟨fetchRelatedApp_map_url env mode _ hall, fetchRelatedCli_map_url env mode _ hall⟩
  · intro env mode doc limit hlim hall
    constructor
    · have := congrArg List.length (fetchRelatedApp_map_url env mode _ hall)
      rw [List.length_map, List.length_take_of_le hlim] at this
      exact this
    · have := congrArg List.length (fetchRelatedCli_map_url env mode _ hall)
      rw [List.length_map, List.length_take_of_le hlim] at this
      exact this

/-- C6 counterexample: the main document has exactly one qualifying
internal link and the limit is 1, but that link fails to resolve, so the
related list before filtering is empty — length 0, not 1. -/
theorem related_prefix_cex :
    (find_internal_links dogDoc).length = 1
    ∧ ((1 : Nat) ≤ (find_internal_links dogDoc).length)
    ∧ (fetchRelatedApp envC6 "links" ((find_internal_links dogDoc).take 1)).length = 0
    ∧ index envC6 "Dog" "links" 1 []
        = .ok { original := "Dog"
                main := { title := "Dog", url := "https://en.wikipedia.org/wiki/Dog",
                          excerpt := "", categories := [] }
                related := [], mode := "links", keywords := [], limit := 1 } :=
  ⟨rfl, by decide, rfl, rfl⟩

/-- Witness for the amended C6 on a world where the single taken link
resolves. -/
theorem related_prefix_witness :
    (fetchRelatedApp envW "links" ((find_internal_links dogDoc).take 1)).map Item.url
        = (find_internal_links dogDoc).take 1
    ∧ (fetchRelatedCli envW "links" ((find_internal_links dogDoc).take 1)).length = 1 := by
  have hall : ∀ url ∈ (find_internal_links dogDoc).take 1,
      ∃ d t, get_soup_for_topic envW (subtopicOf url) = Except.ok (d, t) := by
    intro url hu
    rw [show (find_internal_links dogDoc).take 1
        = ["https://en.wikipedia.org/wiki/Cat"] from rfl] at hu
    rw [List.mem_singleton] at hu
    subst hu
    exact ⟨catDoc, "Cat", rfl⟩
  exact ⟨(related_prefix_spec.2.1 envW "links" dogDoc 1 hall).1,
         (related_prefix_spec.2.2 envW "links" dogDoc 1 (by decide) hall).2⟩

theorem mkMainItem_links (doc : Doc) (t : String) :
    (mkMainItem "links" doc t).excerpt = "" ∧ (mkMainItem "links" doc t).categories = [] := by
  have h : ¬((("links" : String) = "summaries") ∨ (("links" : String) = "filtered")) := by
    decide
  simp [mkMainItem, h]

theorem fetchRelatedApp_links_fields (env : Env) :
    ∀ urls, ∀ it ∈ fetchRelatedApp env "links" urls,
      it.excerpt = "" ∧ it.categories = [] := by
  intro urls
  induction urls with
  | nil => simp [fetchRelatedApp]
  | cons url rest ih =>
    intro it hit
    cases h : get_soup_for_topic env (subtopicOf url) with
    | error e =>
      simp only [fetchRelatedApp, h] at hit
      exact ih it hit
    | ok p =>
      obtain ⟨d, t⟩ := p
      simp only [fetchRelatedApp, h] at hit
      rcases List.mem_cons.mp hit with h1 | h1
      · subst h1
        have hc : ¬((("links" : String) = "summaries") ∨ (("links" : String) = "filtered")) := by
          decide
        constructor <;> simp [mkAppItem, hc]
      · exact ih it h1

theorem fetchRelatedCli_links_excerpt (env : Env) :
    ∀ urls, ∀ it ∈ fetchRelatedCli env "links" urls, it.excerpt = "" := by
  intro urls
  induction urls with
  | nil => simp [fetchRelatedCli]
  | cons url rest ih =>
    intro it hit
    cases h : get_soup_for_topic env (subtopicOf url) with
    | error e =>
      simp only [fetchRelatedCli, h] at hit
      exact ih it hit
    | ok p =>
      obtain ⟨d, t⟩ := p
      simp only [fetchRelatedCli, h] at hit
      rcases List.mem_cons.mp hit with h1 | h1
      · subst h1
        have hc : ¬((("links" : String) = "summaries") ∨ (("links" : String) = "filtered")) := by
          decide
        simp [mkCliItem, hc]
      · exact ih it h1

/-- C1 (amended/corrected): in `links` mode the web pipeline fills
neither excerpt nor categories, for the main article and every related
item, and the CLI pipeline leaves every excerpt empty; the CLI however
always populates `categories` from the fetched related page, regardless
of mode (its related item is always `mkCliItem`, whose categories field
is `get_categories` of the page unconditionally). -/
theorem links_mode_empty_fields :
    (∀ (env : Env) (raw : String) (limit : Nat) (kws : List String) (r : PipelineResult),
      index env raw "links" limit kws = .ok r →
      r.main.excerpt = "" ∧ r.main.categories = []
      ∧ ∀ it ∈ r.related, it.excerpt = "" ∧ it.categories = [])
    ∧ (∀ (env : Env) (topic : String) (limit : Nat) (kws : List String)
        (res : List Item) (t : String),
      cli_main env topic "links" limit kws = .ok (res, t) →
      ∀ it ∈ res, it.excerpt = "")
    ∧ (∀ (env : Env) (mode url : String) (rest : List String) (d : Doc) (t : String),
      get_soup_for_topic env (subtopicOf url) = .ok (d, t) →
      fetchRelatedCli env mode (url :: rest)
        = mkCliItem mode url d :: fetchRelatedCli env mode rest) := by
  refine ⟨?_, ?_, ?_⟩
  · intro env raw limit kws r hr
    cases hm : get_soup_for_topic env raw with
    | error e => simp [index, hm] at hr
    | ok p =>
      obtain ⟨d, t⟩ := p
      have hcond : ¬((("links" : String) = "filtered") ∧ kws ≠ []) :=
        fun hcc => absurd hcc.1 (by decide)
      have hidx := index_ok env raw "links" limit kws d t hm
      rw [if_neg hcond] at hidx
      rw [hidx] at hr
      obtain rfl := Except.ok.inj hr
      exact ⟨(mkMainItem_links d t).1, (mkMainItem_links d t).2,
             fun it hit => fetchRelatedApp_links_fields env _ it hit⟩
  · intro env topic limit kws res t hr
    cases hm : get_soup_for_topic env topic with
    | error e => simp [cli_main, hm] at hr
    | ok p =>
      obtain ⟨d, t0⟩ := p
      have hcond : ¬((("links" : String) = "filtered") ∧ kws ≠ []) :=
        fun hcc => absurd hcc.1 (by decide)
      have hcli := cli_main_ok env topic "links" limit kws d t0 hm
      rw [if_neg hcond] at hcli
      rw [hcli] at hr
      have hres : fetchRelatedCli env "links" ((find_internal_links d).take limit) = res :=
        congrArg Prod.fst (Except.ok.inj hr)
      intro it hit
      rw [← hres] at hit
      exact fetchRelatedCli_links_excerpt env _ it hit
  · intro env mode url rest d t h
    simp [fetchRelatedCli, h]

/-- C1 counterexample: a `links`-mode CLI run whose related item carries
the related page's (non-empty) category list. -/
theorem links_mode_empty_fields_cex :
    cli_main envW "Dog" "links" 1 []
      = .ok ([{ title := "Cat", url := "https://en.wikipedia.org/wiki/Cat",
                excerpt := "", categories := ["Mammals"] }], "Dog")
    ∧ (["Mammals"] : List String) ≠ [] := ⟨rfl, by decide⟩

/-- Witness for the amended C1 on a concrete `links`-mode web run. -/
theorem links_mode_empty_fields_witness :
    index envW "Dog" "links" 1 [] = .ok rLinks
    ∧ (rLinks.main.excerpt = "" ∧ rLinks.main.categories = []
       ∧ ∀ it ∈ rLinks.related, it.excerpt = "" ∧ it.categories = []) :=
  ⟨rfl, links_mode_empty_fields.1 envW "Dog" 1 [] rLinks rfl⟩

/-- C9: in `filtered` mode with non-empty keywords the filter touches
only the related list: the main article is the unfiltered `mkMainItem`
(built before and independently of the filter), the related list is
exactly the keyword filter (default OR semantics) of the pre-filter
related list and a sublist of it — retained items unchanged, relative
order kept; the CLI filters only its results list and its resolved topic
is untouched. -/
theorem filtered_mode_scope :
    (∀ (env : Env) (raw : String) (limit : Nat) (kws : List String) (r : PipelineResult)
        (doc : Doc) (t : String), kws ≠ [] →
      get_soup_for_topic env raw = .ok (doc, t) →
      index env raw "filtered" limit kws = .ok r →
      r.main = mkMainItem "filtered" doc t
      ∧ r.related = filter_by_keyword
          (fetchRelatedApp env "filtered" ((find_internal_links doc).take limit)) kws
      ∧ List.Sublist r.related
          (fetchRelatedApp env "filtered" ((find_internal_links doc).take limit)))
    ∧ (∀ (env : Env) (topic : String) (limit : Nat) (kws : List String)
        (res : List Item) (t : String) (doc : Doc) (t0 : String), kws ≠ [] →
      get_soup_for_topic env topic = .ok (doc, t0) →
      cli_main env topic "filtered" limit kws = .ok (res, t) →
      res = filter_by_keyword
          (fetchRelatedCli env "filtered" ((find_internal_links doc).take limit)) kws
      ∧ t = t0) := by
  constructor
  · intro env raw limit kws r doc t hk hm hr
    have hidx := index_ok env raw "filtered" limit kws doc t hm
    rw [if_pos ⟨rfl, hk⟩] at hidx
    rw [hidx] at hr
    obtain rfl := Except.ok.inj hr
    exact ⟨rfl, rfl, List.filter_sublist _⟩
  · intro env topic limit kws res t doc t0 hk hm hr
    have hcli := cli_main_ok env topic "filtered" limit kws doc t0 hm
    rw [if_pos ⟨rfl, hk⟩] at hcli
    rw [hcli] at hr
    have h2a : filter_by_keyword
        (fetchRelatedCli env "filtered" ((find_internal_links doc).take limit)) kws = res :=
      congrArg Prod.fst (Except.ok.inj hr)
    have h2b : t0 = t := congrArg Prod.snd (Except.ok.inj hr)
    exact ⟨h2a.symm, h2b.symm⟩

/-- Witness for C9 on a concrete filtered run. -/
theorem filtered_mode_scope_witness :
    index envW "Dog" "filtered" 1 ["mammals"] = .ok rFiltered
    ∧ (rFiltered.main = mkMainItem "filtered" dogDoc "Dog"
      ∧ rFiltered.related = filter_by_keyword
          (fetchRelatedApp envW "filtered" ((find_internal_links dogDoc).take 1)) ["mammals"]
      ∧ List.Sublist rFiltered.related
          (fetchRelatedApp envW "filtered" ((find_internal_links dogDoc).take 1))) :=
  ⟨rfl, filtered_mode_scope.1 envW "Dog" 1 ["mammals"] rFiltered dogDoc "Dog"
      (by decide) rfl rfl⟩

end WikiAssist
